import Mathlib

/-!
Verification of the d2geo `ComplexAttributes` class (src/attributes/ComplexTrace.py)
against its natural-language specification.

The attributes all act independently on 1-D traces along the fast (depth/time)
axis: every windowed step is a per-chunk map along that axis, and the segment
peak-pick closures loop over the leading two axes and process each fast-axis
trace on its own.  The model below therefore embeds the fast-axis trace
pipeline: a trace is a `List` of numbers, the halo ("ghost") extension and the
trim are explicit list operations, and the per-block closures of
`response_phase` / `response_frequency` / `response_amplitude` /
`apparent_polarity` are transcribed as folds over the distinct segment ids.

External collaborators (the dask runtime, `attributes/util.py`,
`attributes/SignalProcess.py`, the caller-supplied Hilbert kernel and the
numeric backend primitives) are not under src/; where a claim depends on them
they are modelled from the spec, with a doc comment saying so.

Two value domains are used: exact rationals `ℚ` for the peak-pick engine and
the envelope/derivative arithmetic (with `FVal` adding the IEEE special values
NaN and ±infinity where division can produce them), and `ℝ`/`ℂ` for the
angle-based attributes whose values involve π.
-/

set_option maxHeartbeats 1000000

namespace D2Geo

/-- Insertion of a rational into a list, in front of the first element that is
not smaller.  Helper for the sorted-unique backend primitive. -/
def insertSorted (x : ℚ) : List ℚ → List ℚ
  | [] => [x]
  | y :: ys => if x ≤ y then x :: y :: ys else y :: insertSorted x ys

/-- Ascending insertion sort of a list of rationals. -/
def sortAsc (l : List ℚ) : List ℚ := l.foldr insertSorted []

/-- Modelled from the spec: the numeric backend primitive `unique` (§6) used at
line 522 — the distinct values of a trace, in ascending order. -/
def npUnique (l : List ℚ) : List ℚ := sortAsc l.dedup

/-- Modelled from the spec: the backend primitive `where` (§6) on a 1-D trace,
as used at line 526 — the indices at which the trace equals the given value,
in increasing order. -/
def npWhere (l : List ℚ) (v : ℚ) : List ℕ :=
  (List.range l.length).filter (fun i => decide (l.getD i 0 = v))

/-- numpy `argmax` on a 1-D array: the index of the first occurrence of the
maximum (ties resolved by the lowest index), as used at line 527. -/
def argmaxFirst : List ℚ → ℕ
  | [] => 0
  | x :: xs =>
      if x < xs.getD (argmaxFirst xs) x then argmaxFirst xs + 1 else 0

/-- Fancy-index assignment `out[idx] = v` (line 528): every position listed in
`idx` receives `v`, every other position keeps its value. -/
def writeIdx (out : List ℚ) (idx : List ℕ) (v : ℚ) : List ℚ :=
  (List.range out.length).map (fun k => if k ∈ idx then v else out.getD k 0)

/-- The peak index computed by the closures (line 527):
`idx[chunk1[idx].argmax()]` for the segment id `ii`, where `idx = where(chunk3 == ii)`. -/
def peakOf (c1 c3 : List ℚ) (ii : ℚ) : ℕ :=
  (npWhere c3 ii).getD (argmaxFirst ((npWhere c3 ii).map (fun i => c1.getD i 0))) 0

/-- The per-block closure `operation` of `response_phase` (lines 518-530),
per fast-axis trace: start from zeros, and for every distinct segment id in
`chunk3` write the companion value `chunk2[peak]` to the whole segment. -/
def operationResponsePhase (c1 c2 c3 : List ℚ) : List ℚ :=
  (npUnique c3).foldl
    (fun out ii => writeIdx out (npWhere c3 ii) (c2.getD (peakOf c1 c3 ii) 0))
    (List.replicate c1.length 0)

/-- The per-block closure `operation` of `response_frequency` (lines 567-579),
textually identical to the one in `response_phase`. -/
def operationResponseFrequency (c1 c2 c3 : List ℚ) : List ℚ :=
  (npUnique c3).foldl
    (fun out ii => writeIdx out (npWhere c3 ii) (c2.getD (peakOf c1 c3 ii) 0))
    (List.replicate c1.length 0)

/-- The per-block closure `operation` of `response_amplitude` (lines 615-627),
textually identical to the one in `response_phase`. -/
def operationResponseAmplitude (c1 c2 c3 : List ℚ) : List ℚ :=
  (npUnique c3).foldl
    (fun out ii => writeIdx out (npWhere c3 ii) (c2.getD (peakOf c1 c3 ii) 0))
    (List.replicate c1.length 0)

/-- numpy `sign` on a rational value. -/
def npSign (q : ℚ) : ℚ := if 0 < q then 1 else if q < 0 then -1 else 0

/-- The per-block closure `operation` of `apparent_polarity` (lines 662-675):
as the take-companion closures, but the value written to the segment is
`chunk1[peak] * sign(chunk2[peak])` (line 673). -/
def operationApparentPolarity (c1 c2 c3 : List ℚ) : List ℚ :=
  (npUnique c3).foldl
    (fun out ii =>
      writeIdx out (npWhere c3 ii)
        (c1.getD (peakOf c1 c3 ii) 0 * npSign (c2.getD (peakOf c1 c3 ii) 0)))
    (List.replicate c1.length 0)

/-- The response closures with the numpy indexing failures made explicit:
`none` models the IndexError an out-of-range access would raise, in the access
order of lines 526-528 (read `chunk1[idx]`, take `idx[argmax]`, read
`chunk2[peak]`, write `out[idx]`).  No shape validation precedes the loop in
the source. -/
def checkedStep (c1 c2 c3 : List ℚ) (acc : Option (List ℚ)) (ii : ℚ) :
    Option (List ℚ) :=
  match acc with
  | none => none
  | some out =>
    let idx := npWhere c3 ii
    if idx.all (fun i => decide (i < c1.length)) then
      match idx[argmaxFirst (idx.map (fun i => c1.getD i 0))]? with
      | none => none
      | some peak =>
        match c2[peak]? with
        | none => none
        | some v =>
          if idx.all (fun i => decide (i < out.length)) then
            some (writeIdx out idx v)
          else none
    else none

/-- The loop of the response closures with the step above: fold over the
distinct segment ids starting from the zero output. -/
def operationChecked (c1 c2 c3 : List ℚ) : Option (List ℚ) :=
  (npUnique c3).foldl (checkedStep c1 c2 c3)
    (some (List.replicate c1.length 0))

/-- Modelled from the spec: `util.local_events` (attributes/util.py, not under
src/), per §4.6 step 1 — the indicator of a strict local minimum with respect
to both neighbours, boundary samples never flagged.  Used at lines 535-536 with
`comparator=less` on the envelope. -/
def localMinIndicator (l : List ℚ) : List ℚ :=
  (List.range l.length).map (fun i =>
    if 0 < i ∧ i + 1 < l.length ∧ l.getD i 0 < l.getD (i - 1) 0 ∧
        l.getD i 0 < l.getD (i + 1) 0
    then 1 else 0)

/-- Inclusive prefix sums starting from `s`. -/
def cumsumFrom (s : ℚ) : List ℚ → List ℚ
  | [] => []
  | x :: xs => (s + x) :: cumsumFrom (s + x) xs

/-- Inclusive cumulative sum along the fast axis (dask `cumsum(axis=-1)`,
line 537). -/
def cumsum (l : List ℚ) : List ℚ := cumsumFrom 0 l

/-- The segment-id signal of a trace: cumulative sum of the local-minima
indicator of the reference signal (lines 535-537). -/
def troughsOf (env : List ℚ) : List ℚ := cumsum (localMinIndicator env)

/-- Characterisation of the peak of a segment taken from the spec (§3 "Peak"):
a member of the segment's index set at which the reference achieves its
maximum over the segment, ties resolved by the lowest index. -/
def isFirstPeak (c1 : List ℚ) (idx : List ℕ) (p : ℕ) : Prop :=
  p ∈ idx ∧ (∀ q ∈ idx, c1.getD q 0 ≤ c1.getD p 0) ∧
    (∀ q ∈ idx, c1.getD q 0 = c1.getD p 0 → p ≤ q)

/-- Extended value: a finite rational or one of the IEEE special values NaN,
+inf, -inf.  Models the float special values that the division in
`relative_amplitude_change` and the NaN scrub of the response attributes
concern. -/
inductive FVal where
  | fin : ℚ → FVal
  | pinf : FVal
  | ninf : FVal
  | nan : FVal
deriving DecidableEq

/-- numpy `isnan` on an extended value. -/
def isnanF (v : FVal) : Bool :=
  match v with
  | FVal.nan => true
  | _ => false

/-- Whether an extended value is one of the two infinities. -/
def isinfF (v : FVal) : Bool :=
  match v with
  | FVal.pinf => true
  | FVal.ninf => true
  | _ => false

/-- The terminal post-pass `result[da.isnan(result)] = 0` of the segment
peak-pick attributes (lines 539, 588, 635, 683): every NaN sample is replaced
by 0, every other sample is kept. -/
def scrubNaN (l : List FVal) : List FVal :=
  l.map (fun v => if isnanF v then FVal.fin 0 else v)

/-- IEEE division of two finite values: a zero denominator produces NaN on
0/0 and a signed infinity otherwise. -/
def divF (a b : ℚ) : FVal :=
  if b = 0 then
    (if a = 0 then FVal.nan else if 0 < a then FVal.pinf else FVal.ninf)
  else FVal.fin (a / b)

/-- numpy `clip` with finite scalar bounds: finite values are clamped,
infinities collapse to the corresponding bound, NaN propagates. -/
def clipF (lo hi : ℚ) (v : FVal) : FVal :=
  match v with
  | FVal.fin q => FVal.fin (max lo (min hi q))
  | FVal.pinf => FVal.fin hi
  | FVal.ninf => FVal.fin lo
  | FVal.nan => FVal.nan

/-- Modelled from the spec: the Halo Manager `extend` (§4.2) along the fast
axis for one block with the `reflect` boundary of `create_array`
(lines 94-99): `h` mirrored samples are prepended and appended. -/
def ghostReflect {α : Type} (h : ℕ) (l : List α) : List α :=
  (l.take h).reverse ++ l ++ (l.reverse.take h)

/-- Modelled from the spec: `util.trim_dask_array` / Halo Manager `trim`
(§4.2, not under src/): remove exactly the kernel half-window from each side
along the fast axis. -/
def trimHalo {α : Type} (h : ℕ) (l : List α) : List α :=
  (l.drop h).take (l.length - 2 * h)

/-- Modelled from the spec: `SignalProcess.first_derivative`
(attributes/SignalProcess.py, not under src/), per §4.4 — central difference
in the interior, one-sided at the two edges, shape preserved. -/
def firstDerivative {α : Type} [Field α] (l : List α) : List α :=
  (List.range l.length).map (fun i =>
    if i = 0 then l.getD 1 0 - l.getD 0 0
    else if i = l.length - 1 then l.getD i 0 - l.getD (i - 1) 0
    else (l.getD (i + 1) 0 - l.getD (i - 1) 0) / 2)

/-- `envelope` (lines 139-168) at trace level over exact values: ghost the
trace by the kernel half-window, apply the caller-supplied Hilbert callback
blockwise, take the magnitude with the backend `abs` primitive, trim the halo
back off.  `hcb` and `cabs` are the external analytic-signal kernel and the
backend magnitude (out of scope per §1/§6), passed as parameters. -/
def envelope (hcb : List ℚ → List (ℚ × ℚ)) (cabs : ℚ × ℚ → ℚ) (h : ℕ)
    (v : List ℚ) : List ℚ :=
  trimHalo h ((hcb (ghostReflect h v)).map cabs)

/-- `relative_amplitude_change` (lines 232-261) at trace level: the first
derivative of the envelope divided elementwise by the envelope, clipped to
[-1, 1]; the division carries the IEEE special values. -/
def relative_amplitude_change (hcb : List ℚ → List (ℚ × ℚ))
    (cabs : ℚ × ℚ → ℚ) (h : ℕ) (v : List ℚ) : List FVal :=
  (List.zipWith divF (firstDerivative (envelope hcb cabs h v))
      (envelope hcb cabs h v)).map (clipF (-1) 1)

/-- Degrees from radians, `da.rad2deg` (line 195). -/
noncomputable def rad2deg (x : ℝ) : ℝ := x * 180 / Real.pi

/-- Radians from degrees, `da.deg2rad` (line 322). -/
noncomputable def deg2rad (x : ℝ) : ℝ := x * Real.pi / 180

/-- `instantaneous_phase` (lines 170-198) at trace level over real values:
ghost by the kernel half-window, apply the Hilbert callback, take the angle of
the analytic signal in degrees, trim the halo. -/
noncomputable def instantaneous_phase (hcb : List ℝ → List ℂ) (h : ℕ)
    (v : List ℝ) : List ℝ :=
  trimHalo h ((hcb (ghostReflect h v)).map (fun z => rad2deg z.arg))

/-- `cosine_instantaneous_phase` (lines 201-228): `create_array` without a
kernel leaves the trace unghosted, `instantaneous_phase` is computed, and then
`da.rad2deg(da.angle(phase))` is applied to the already degrees-valued real
phase (the real samples being cast to complex numbers by `angle`). -/
noncomputable def cosine_instantaneous_phase (hcb : List ℝ → List ℂ) (h : ℕ)
    (v : List ℝ) : List ℝ :=
  (instantaneous_phase hcb h v).map
    (fun x => rad2deg (Complex.arg (Complex.ofReal x)))

/-- The spec's formula for cosine instantaneous phase, following its words
(§4.5): `deg(angle(deg(angle(analytic))))`, the inner angle taken on the
halo-extended analytic signal and trimmed, the outer angle taken on the
resulting real degrees-valued trace. -/
noncomputable def cosineInstPhaseSpecFormula (hcb : List ℝ → List ℂ) (h : ℕ)
    (v : List ℝ) : List ℝ :=
  (trimHalo h ((hcb (ghostReflect h v)).map (fun z => rad2deg z.arg))).map
    (fun x => rad2deg (Complex.arg (Complex.ofReal x)))

/-- `envelope` at trace level over real values (used by `sweetness`,
line 454): magnitude of the analytic signal, halo trimmed. -/
noncomputable def envelopeR (hcb : List ℝ → List ℂ) (h : ℕ) (v : List ℝ) :
    List ℝ :=
  trimHalo h ((hcb (ghostReflect h v)).map Complex.abs)

/-- `instantaneous_frequency` (lines 294-327) at trace level.  Line 318 calls
`create_array` with the hardcoded kernel `(1,1,25)`, ghosting the input by the
half-window 12; that halo is never trimmed.  `instantaneous_phase` then ghosts
its (already ghosted) input by the user kernel half-window `h` and trims `h`
back off.  `unwrapF` models the external backend `unwrap` primitive
(line 323). -/
noncomputable def instantaneous_frequency (hcb : List ℝ → List ℂ)
    (unwrapF : List ℝ → List ℝ) (sample_rate : ℝ) (h : ℕ) (v : List ℝ) :
    List ℝ :=
  (firstDerivative (unwrapF ((instantaneous_phase hcb h
      (ghostReflect 12 v)).map deg2rad))).map
    (fun x => |x / (2 * Real.pi) * (1000 / sample_rate)|)

/-- Modelled from the spec: the external runtime's elementwise binary
operations (§6) require the operands to agree in shape along the fast axis;
`none` models the error dask/numpy raise on a mismatch (size-1 broadcasting
cannot arise here since both traces have length at least 2 in every use). -/
noncomputable def zipDivSameLength (a b : List ℝ) : Option (List ℝ) :=
  if a.length = b.length then some (List.zipWith (fun x y => x / y) a b)
  else none

/-- `sweetness` (lines 423-458) at trace level: the instantaneous frequency
clamped below 5 by `func` (`chunk[chunk < 5] = 5`), then the envelope divided
elementwise by it. -/
noncomputable def sweetness (hcb : List ℝ → List ℂ)
    (unwrapF : List ℝ → List ℝ) (sample_rate : ℝ) (h : ℕ) (v : List ℝ) :
    Option (List ℝ) :=
  zipDivSameLength (envelopeR hcb h v)
    ((instantaneous_frequency hcb unwrapF sample_rate h v).map
      (fun x => if x < 5 then 5 else x))

/-! Helper lemmas about the modelled backend primitives. -/

theorem writeIdx_length (out : List ℚ) (idx : List ℕ) (v : ℚ) :
    (writeIdx out idx v).length = out.length := by
  simp [writeIdx]

theorem getD_writeIdx (out : List ℚ) (idx : List ℕ) (v : ℚ) (k : ℕ)
    (hk : k < out.length) :
    (writeIdx out idx v).getD k 0 = if k ∈ idx then v else out.getD k 0 := by
  simp [writeIdx, List.getD_eq_getElem?_getD, List.getElem?_map,
    List.getElem?_range hk]

theorem mem_npWhere {l : List ℚ} {v : ℚ} {i : ℕ} :
    i ∈ npWhere l v ↔ i < l.length ∧ l.getD i 0 = v := by
  simp [npWhere, List.mem_filter, List.mem_range]

theorem npWhere_pairwise_lt (l : List ℚ) (v : ℚ) :
    (npWhere l v).Pairwise (fun a b => a < b) :=
  List.Pairwise.filter _ (List.pairwise_lt_range l.length)

theorem npWhere_nonempty {c3 : List ℚ} {ii : ℚ} (h : ii ∈ c3) :
    npWhere c3 ii ≠ [] := by
  obtain ⟨n, hn, he⟩ := List.mem_iff_getElem.mp h
  intro hemp
  have hmem : n ∈ npWhere c3 ii :=
    mem_npWhere.mpr ⟨hn, by rw [List.getD_eq_getElem _ 0 hn]; exact he⟩
  rw [hemp] at hmem
  exact (List.not_mem_nil n) hmem

theorem insertSorted_perm (x : ℚ) (l : List ℚ) :
    (insertSorted x l).Perm (x :: l) := by
  induction l with
  | nil => exact List.Perm.refl _
  | cons y ys ih =>
    rw [insertSorted]
    by_cases h : x ≤ y
    · simp [h]
    · simp only [h, if_false]
      exact (ih.cons y).trans (List.Perm.swap x y ys)

theorem sortAsc_perm (l : List ℚ) : (sortAsc l).Perm l := by
  induction l with
  | nil => exact List.Perm.refl _
  | cons x xs ih => exact (insertSorted_perm x (sortAsc xs)).trans (ih.cons x)

theorem npUnique_perm_dedup (l : List ℚ) : (npUnique l).Perm l.dedup :=
  sortAsc_perm _

theorem npUnique_nodup (l : List ℚ) : (npUnique l).Nodup :=
  ((npUnique_perm_dedup l).nodup_iff).mpr (List.nodup_dedup l)

theorem mem_npUnique {l : List ℚ} {v : ℚ} : v ∈ npUnique l ↔ v ∈ l := by
  rw [(npUnique_perm_dedup l).mem_iff, List.mem_dedup]

theorem argmaxFirst_lt {l : List ℚ} (h : l ≠ []) : argmaxFirst l < l.length := by
  induction l with
  | nil => exact absurd rfl h
  | cons x xs ih =>
    simp only [argmaxFirst]
    by_cases hc : x < xs.getD (argmaxFirst xs) x
    · have hxs : xs ≠ [] := by
        intro he
        rw [he] at hc
        simp [List.getD_nil] at hc
      rw [if_pos hc]
      exact Nat.succ_lt_succ (ih hxs)
    · rw [if_neg hc]
      exact Nat.succ_pos _

theorem argmaxFirst_max {l : List ℚ} (k : ℕ) (hk : k < l.length) :
    l.getD k 0 ≤ l.getD (argmaxFirst l) 0 := by
  induction l generalizing k with
  | nil => simp at hk
  | cons x xs ih =>
    rcases eq_or_ne xs [] with he | hne
    · subst he
      have hk0 : k = 0 := Nat.lt_one_iff.mp hk
      subst hk0
      simp [argmaxFirst]
    · have ham : argmaxFirst xs < xs.length := argmaxFirst_lt hne
      have hgetd : xs.getD (argmaxFirst xs) x = xs.getD (argmaxFirst xs) 0 := by
        rw [List.getD_eq_getElem _ x ham, List.getD_eq_getElem _ 0 ham]
      simp only [argmaxFirst]
      by_cases hc : x < xs.getD (argmaxFirst xs) x
      · simp only [hc, if_true, List.getD_cons_succ]
        cases k with
        | zero =>
          rw [List.getD_cons_zero]
          rw [hgetd] at hc
          exact le_of_lt hc
        | succ k =>
          rw [List.getD_cons_succ]
          exact ih k (Nat.lt_of_succ_lt_succ hk)
      · simp only [hc, if_false, List.getD_cons_zero]
        cases k with
        | zero => rw [List.getD_cons_zero]
        | succ k =>
          rw [List.getD_cons_succ]
          have hle : xs.getD (argmaxFirst xs) 0 ≤ x := by
            rw [← hgetd]
            exact not_lt.mp hc
          exact (ih k (Nat.lt_of_succ_lt_succ hk)).trans hle

theorem argmaxFirst_strict_before {l : List ℚ} (k : ℕ)
    (hk : k < argmaxFirst l) :
    l.getD k 0 < l.getD (argmaxFirst l) 0 := by
  induction l generalizing k with
  | nil => simp [argmaxFirst] at hk
  | cons x xs ih =>
    rcases eq_or_ne xs [] with he | hne
    · subst he
      simp [argmaxFirst, List.getD_nil] at hk
    · have ham : argmaxFirst xs < xs.length := argmaxFirst_lt hne
      have hgetd : xs.getD (argmaxFirst xs) x = xs.getD (argmaxFirst xs) 0 := by
        rw [List.getD_eq_getElem _ x ham, List.getD_eq_getElem _ 0 ham]
      simp only [argmaxFirst] at hk ⊢
      by_cases hc : x < xs.getD (argmaxFirst xs) x
      · simp only [hc, if_true, List.getD_cons_succ] at hk ⊢
        cases k with
        | zero =>
          rw [List.getD_cons_zero]
          rw [hgetd] at hc
          exact hc
        | succ k =>
          rw [List.getD_cons_succ]
          exact ih k (Nat.lt_of_succ_lt_succ hk)
      · simp only [hc, if_false] at hk
        exact absurd hk (Nat.not_lt_zero k)

theorem pairwise_lt_getElem_le {l : List ℕ}
    (hpw : l.Pairwise (fun a b => a < b)) {i j : ℕ} (hi : i < l.length)
    (hj : j < l.length) (hij : i ≤ j) : l[i] ≤ l[j] := by
  rcases Nat.eq_or_lt_of_le hij with he | hlt
  · subst he
    exact le_refl _
  · exact le_of_lt (List.pairwise_iff_getElem.mp hpw i j hi hj hlt)

theorem peakOf_isFirstPeak (c1 c3 : List ℚ) (ii : ℚ) (hii : ii ∈ c3) :
    isFirstPeak c1 (npWhere c3 ii) (peakOf c1 c3 ii) := by
  set idx := npWhere c3 ii with hidx
  set vals := idx.map (fun i => c1.getD i 0) with hvals
  set j := argmaxFirst vals with hjdef
  have hne : idx ≠ [] := npWhere_nonempty hii
  have hvne : vals ≠ [] := by
    rw [hvals]
    simpa using hne
  have hjv : j < vals.length := argmaxFirst_lt hvne
  have hj : j < idx.length := by
    rw [hvals, List.length_map] at hjv
    exact hjv
  have hval_eq : ∀ m : ℕ, m < idx.length →
      vals.getD m 0 = c1.getD (idx.getD m 0) 0 := by
    intro m hm
    have hm2 : m < vals.length := by rw [hvals, List.length_map]; exact hm
    rw [List.getD_eq_getElem _ 0 hm2, List.getD_eq_getElem _ 0 hm]
    simp [hvals]
  have hpk : peakOf c1 c3 ii = idx.getD j 0 := rfl
  refine ⟨?_, ?_, ?_⟩
  · rw [hpk, List.getD_eq_getElem _ 0 hj]
    exact List.getElem_mem hj
  · intro q hq
    obtain ⟨m, hm, hms⟩ := List.mem_iff_getElem.mp hq
    have hm2 : m < vals.length := by rw [hvals, List.length_map]; exact hm
    have h1 : c1.getD q 0 = vals.getD m 0 := by
      rw [hval_eq m hm, List.getD_eq_getElem _ 0 hm, hms]
    rw [hpk, h1, ← hval_eq j hj]
    exact argmaxFirst_max m hm2
  · intro q hq heq
    obtain ⟨m, hm, hms⟩ := List.mem_iff_getElem.mp hq
    have h1 : c1.getD q 0 = vals.getD m 0 := by
      rw [hval_eq m hm, List.getD_eq_getElem _ 0 hm, hms]
    have h2 : vals.getD m 0 = vals.getD j 0 := by
      rw [← h1, heq, hpk, ← hval_eq j hj]
    have hjm : j ≤ m := by
      by_contra hlt
      push_neg at hlt
      exact absurd h2 (ne_of_lt (argmaxFirst_strict_before m hlt))
    have hpw : idx.Pairwise (fun a b => a < b) := npWhere_pairwise_lt c3 ii
    rw [hpk, List.getD_eq_getElem _ 0 hj, ← hms]
    exact pairwise_lt_getElem_le hpw hj hm hjm

theorem foldl_write_length (c3 : List ℚ) (val : ℚ → ℚ) (us : List ℚ)
    (out : List ℚ) :
    (us.foldl (fun o ii => writeIdx o (npWhere c3 ii) (val ii)) out).length =
      out.length := by
  induction us generalizing out with
  | nil => rfl
  | cons a us ih => rw [List.foldl_cons, ih, writeIdx_length]

theorem foldl_write_getD (c3 : List ℚ) (val : ℚ → ℚ) (us : List ℚ) (k : ℕ)
    (hk : k < c3.length) :
    ∀ out : List ℚ, us.Nodup → out.length = c3.length →
      (us.foldl (fun o ii => writeIdx o (npWhere c3 ii) (val ii)) out).getD k 0 =
        if c3.getD k 0 ∈ us then val (c3.getD k 0) else out.getD k 0 := by
  induction us with
  | nil =>
    intro out _ _
    simp
  | cons a us ih =>
    intro out hnd hlen
    obtain ⟨ha, hnd2⟩ := List.nodup_cons.mp hnd
    rw [List.foldl_cons,
      ih (writeIdx out (npWhere c3 a) (val a)) hnd2
        (by rw [writeIdx_length, hlen])]
    have hkout : k < out.length := by rw [hlen]; exact hk
    rw [getD_writeIdx out (npWhere c3 a) (val a) k hkout]
    by_cases hca : c3.getD k 0 = a
    · have hmem : k ∈ npWhere c3 a := mem_npWhere.mpr ⟨hk, hca⟩
      have hnotin : c3.getD k 0 ∉ us := by rw [hca]; exact ha
      rw [if_neg hnotin, if_pos hmem, if_pos (List.mem_cons.mpr (Or.inl hca)),
        hca]
    · have hmem : k ∉ npWhere c3 a := by
        intro hmm
        exact hca (mem_npWhere.mp hmm).2
      rw [if_neg hmem]
      by_cases hus : c3.getD k 0 ∈ us
      · rw [if_pos hus, if_pos (List.mem_cons.mpr (Or.inr hus))]
      · rw [if_neg hus, if_neg (fun hmm => (List.mem_cons.mp hmm).elim hca hus)]

theorem operationResponsePhase_getD (c1 c2 c3 : List ℚ)
    (h1 : c1.length = c3.length) (k : ℕ) (hk : k < c3.length) :
    (operationResponsePhase c1 c2 c3).getD k 0 =
      c2.getD (peakOf c1 c3 (c3.getD k 0)) 0 := by
  have hmem : c3.getD k 0 ∈ npUnique c3 := by
    rw [mem_npUnique, List.getD_eq_getElem _ 0 hk]
    exact List.getElem_mem hk
  have hfold := foldl_write_getD c3 (fun ii => c2.getD (peakOf c1 c3 ii) 0)
    (npUnique c3) k hk (List.replicate c1.length 0) (npUnique_nodup c3)
    (by rw [List.length_replicate, h1])
  rw [if_pos hmem] at hfold
  exact hfold

theorem operationApparentPolarity_getD (c1 c2 c3 : List ℚ)
    (h1 : c1.length = c3.length) (k : ℕ) (hk : k < c3.length) :
    (operationApparentPolarity c1 c2 c3).getD k 0 =
      c1.getD (peakOf c1 c3 (c3.getD k 0)) 0 *
        npSign (c2.getD (peakOf c1 c3 (c3.getD k 0)) 0) := by
  have hmem : c3.getD k 0 ∈ npUnique c3 := by
    rw [mem_npUnique, List.getD_eq_getElem _ 0 hk]
    exact List.getElem_mem hk
  have hfold := foldl_write_getD c3
    (fun ii => c1.getD (peakOf c1 c3 ii) 0 * npSign (c2.getD (peakOf c1 c3 ii) 0))
    (npUnique c3) k hk (List.replicate c1.length 0) (npUnique_nodup c3)
    (by rw [List.length_replicate, h1])
  rw [if_pos hmem] at hfold
  exact hfold

theorem npWhere_cons (x : ℚ) (xs : List ℚ) (v : ℚ) :
    npWhere (x :: xs) v =
      (if x = v then [0] else []) ++ (npWhere xs v).map Nat.succ := by
  rw [npWhere, List.length_cons, List.range_succ_eq_map, List.filter_cons]
  have hfun : (fun i => decide (List.getD (x :: xs) i 0 = v)) ∘ Nat.succ =
      fun i => decide (List.getD xs i 0 = v) := by
    funext i
    simp [Function.comp, List.getD_cons_succ]
  rw [List.filter_map, hfun]
  by_cases h : x = v
  · simp [h, npWhere]
  · simp [h, npWhere]

theorem npWhere_length_count (l : List ℚ) (v : ℚ) :
    (npWhere l v).length = List.count v l := by
  induction l with
  | nil => rfl
  | cons x xs ih =>
    rw [npWhere_cons, List.length_append, List.length_map, ih, List.count_cons]
    by_cases h : x = v
    · simp [h, Nat.add_comm]
    · simp [h]

theorem npUnique_sum_counts (l : List ℚ) :
    ((npUnique l).map (fun v => (npWhere l v).length)).sum = l.length := by
  have hperm := (npUnique_perm_dedup l).map (fun v => (npWhere l v).length)
  rw [hperm.sum_eq]
  have hmap : l.dedup.map (fun v => (npWhere l v).length) =
      l.dedup.map (fun x => List.count x l) := by
    apply List.map_congr_left
    intro x _
    exact npWhere_length_count l x
  rw [hmap, List.sum_map_count_dedup_eq_length]

theorem cumsumFrom_length (s : ℚ) (l : List ℚ) :
    (cumsumFrom s l).length = l.length := by
  induction l generalizing s with
  | nil => rfl
  | cons x xs ih => simp [cumsumFrom, ih]

theorem cumsumFrom_ge (l : List ℚ) :
    ∀ s : ℚ, (∀ x ∈ l, 0 ≤ x) → ∀ m : ℕ, m < l.length →
      s ≤ (cumsumFrom s l).getD m 0 := by
  induction l with
  | nil =>
    intro s _ m hm
    simp at hm
  | cons x xs ih =>
    intro s hpos m hm
    have hx : 0 ≤ x := hpos x (List.mem_cons_self x xs)
    cases m with
    | zero =>
      rw [cumsumFrom, List.getD_cons_zero]
      linarith
    | succ m =>
      have hm2 : m < xs.length := by
        simp only [List.length_cons] at hm
        omega
      rw [cumsumFrom, List.getD_cons_succ]
      have hrec := ih (s + x) (fun y hy => hpos y (List.mem_cons_of_mem x hy))
        m hm2
      linarith

theorem cumsumFrom_mono (l : List ℚ) :
    ∀ s : ℚ, (∀ x ∈ l, 0 ≤ x) → ∀ j k : ℕ, j ≤ k → k < l.length →
      (cumsumFrom s l).getD j 0 ≤ (cumsumFrom s l).getD k 0 := by
  induction l with
  | nil =>
    intro s _ j k _ hk
    simp at hk
  | cons x xs ih =>
    intro s hpos j k hjk hk
    have hpos2 : ∀ y ∈ xs, 0 ≤ y := fun y hy => hpos y (List.mem_cons_of_mem x hy)
    cases j with
    | zero =>
      cases k with
      | zero => exact le_refl _
      | succ k =>
        have hk2 : k < xs.length := by
          simp only [List.length_cons] at hk
          omega
        rw [cumsumFrom, List.getD_cons_zero, List.getD_cons_succ]
        exact cumsumFrom_ge xs (s + x) hpos2 k hk2
    | succ j =>
      cases k with
      | zero => exact absurd hjk (Nat.not_succ_le_zero j)
      | succ k =>
        have hk2 : k < xs.length := by
          simp only [List.length_cons] at hk
          omega
        rw [cumsumFrom, List.getD_cons_succ, List.getD_cons_succ]
        exact ih (s + x) hpos2 j k (Nat.le_of_succ_le_succ hjk) hk2

theorem localMinIndicator_nonneg (l : List ℚ) :
    ∀ x ∈ localMinIndicator l, 0 ≤ x := by
  intro x hx
  rw [localMinIndicator] at hx
  obtain ⟨i, hi, hfe⟩ := List.mem_map.mp hx
  rw [← hfe]
  split
  · norm_num
  · norm_num

theorem localMinIndicator_length (l : List ℚ) :
    (localMinIndicator l).length = l.length := by
  simp [localMinIndicator]

theorem troughsOf_length (e : List ℚ) : (troughsOf e).length = e.length := by
  rw [troughsOf, cumsum, cumsumFrom_length, localMinIndicator_length]

theorem operationChecked_foldl_some (c1 c2 c3 : List ℚ)
    (h1 : c1.length = c3.length) (h2 : c3.length ≤ c2.length) :
    ∀ us : List ℚ, (∀ ii ∈ us, ii ∈ c3) → ∀ out : List ℚ,
      out.length = c1.length →
      ∃ r : List ℚ, us.foldl (checkedStep c1 c2 c3) (some out) = some r ∧
        r.length = c1.length := by
  intro us
  induction us with
  | nil =>
    intro _ out hout
    exact ⟨out, rfl, hout⟩
  | cons a us ih =>
    intro hsub out hout
    have ha : a ∈ c3 := hsub a (List.mem_cons_self a us)
    set idx := npWhere c3 a with hidx
    have hbound : ∀ i ∈ idx, i < c3.length := fun i hi => (mem_npWhere.mp hi).1
    have hall1 : idx.all (fun i => decide (i < c1.length)) = true := by
      rw [List.all_eq_true]
      intro i hi
      have hlt : i < c1.length := by rw [h1]; exact hbound i hi
      simpa using hlt
    have hne : idx ≠ [] := npWhere_nonempty ha
    have hvne : idx.map (fun i => c1.getD i 0) ≠ [] := by simpa using hne
    have hjlt : argmaxFirst (idx.map (fun i => c1.getD i 0)) < idx.length := by
      have hl := argmaxFirst_lt hvne
      simpa using hl
    have hpeak : idx[argmaxFirst (idx.map (fun i => c1.getD i 0))]? =
        some (idx.get ⟨argmaxFirst (idx.map (fun i => c1.getD i 0)), hjlt⟩) :=
      List.getElem?_eq_getElem hjlt
    have hpeakmem : idx.get ⟨argmaxFirst (idx.map (fun i => c1.getD i 0)), hjlt⟩ ∈ idx :=
      List.get_mem idx _ _
    have hpeaklt :
        idx.get ⟨argmaxFirst (idx.map (fun i => c1.getD i 0)), hjlt⟩ < c2.length :=
      lt_of_lt_of_le (hbound _ hpeakmem) h2
    have hv : c2[idx.get ⟨argmaxFirst (idx.map (fun i => c1.getD i 0)), hjlt⟩]? =
        some (c2.get ⟨_, hpeaklt⟩) := List.getElem?_eq_getElem hpeaklt
    have hall2 : idx.all (fun i => decide (i < out.length)) = true := by
      rw [List.all_eq_true]
      intro i hi
      have hlt : i < out.length := by rw [hout, h1]; exact hbound i hi
      simpa using hlt
    have hstep : checkedStep c1 c2 c3 (some out) a =
        some (writeIdx out idx (c2.get ⟨_, hpeaklt⟩)) := by
      simp only [checkedStep, ← hidx, hall1, if_true, hpeak, hv, hall2]
    rw [List.foldl_cons, hstep]
    exact ih (fun ii hii => hsub ii (List.mem_cons_of_mem a hii))
      (writeIdx out idx (c2.get ⟨_, hpeaklt⟩))
      (by rw [writeIdx_length, hout])

theorem ghostReflect_length {α : Type} (h : ℕ) (l : List α)
    (hh : h ≤ l.length) : (ghostReflect h l).length = l.length + 2 * h := by
  simp only [ghostReflect, List.length_append, List.length_take,
    List.length_reverse, min_eq_left hh]
  omega

theorem trimHalo_length {α : Type} (h : ℕ) (l : List α) :
    (trimHalo h l).length = l.length - 2 * h := by
  simp only [trimHalo, List.length_take, List.length_drop]
  omega

theorem firstDerivative_length {α : Type} [Field α] (l : List α) :
    (firstDerivative l).length = l.length := by
  simp [firstDerivative]

theorem instantaneous_phase_length (hcb : List ℝ → List ℂ)
    (hh : ∀ l, (hcb l).length = l.length) (h : ℕ) (v : List ℝ)
    (hv : h ≤ v.length) :
    (instantaneous_phase hcb h v).length = v.length := by
  rw [instantaneous_phase, trimHalo_length, List.length_map, hh,
    ghostReflect_length h v hv]
  omega

theorem envelopeR_length (hcb : List ℝ → List ℂ)
    (hh : ∀ l, (hcb l).length = l.length) (h : ℕ) (v : List ℝ)
    (hv : h ≤ v.length) : (envelopeR hcb h v).length = v.length := by
  rw [envelopeR, trimHalo_length, List.length_map, hh,
    ghostReflect_length h v hv]
  omega

theorem instantaneous_frequency_length (hcb : List ℝ → List ℂ)
    (unwrapF : List ℝ → List ℝ) (hh : ∀ l, (hcb l).length = l.length)
    (hu : ∀ l, (unwrapF l).length = l.length) (sr : ℝ) (v : List ℝ)
    (hv : 12 ≤ v.length) :
    (instantaneous_frequency hcb unwrapF sr 12 v).length = v.length + 24 := by
  have hg : (ghostReflect 12 v).length = v.length + 24 := by
    rw [ghostReflect_length 12 v hv]
  have hip : (instantaneous_phase hcb 12 (ghostReflect 12 v)).length =
      v.length + 24 := by
    rw [instantaneous_phase_length hcb hh 12 _ (by rw [hg]; omega), hg]
  rw [instantaneous_frequency, List.length_map, firstDerivative_length, hu,
    List.length_map, hip]

theorem rad2deg_arg_real (x : ℝ) :
    rad2deg (Complex.arg (Complex.ofReal x)) = 0 ∨
      rad2deg (Complex.arg (Complex.ofReal x)) = 180 := by
  rcases le_or_lt 0 x with hx | hx
  · left
    rw [Complex.arg_ofReal_of_nonneg hx, rad2deg]
    simp
  · right
    rw [Complex.arg_ofReal_of_neg hx, rad2deg]
    rw [mul_comm, mul_div_assoc, div_self Real.pi_ne_zero, mul_one]

/-! The claims. -/

/-- C1: the spec says every attribute returns a volume of the same logical
shape as the input after trimming.  The envelope does (first conjunct), but
`instantaneous_frequency` with its default kernel ghosts the input by the
hardcoded half-window 12 at line 318 and never trims that halo: its output
trace is 24 samples longer than the input (second conjunct), contradicting
the claim. -/
theorem claim_C1_output_shapes :
    (∀ (hcb : List ℝ → List ℂ) (h : ℕ) (v : List ℝ),
        (∀ l, (hcb l).length = l.length) → h ≤ v.length →
        (envelopeR hcb h v).length = v.length)
    ∧ (∀ (hcb : List ℝ → List ℂ) (unwrapF : List ℝ → List ℝ) (sr : ℝ)
        (v : List ℝ), (∀ l, (hcb l).length = l.length) →
        (∀ l, (unwrapF l).length = l.length) → 12 ≤ v.length →
        (instantaneous_frequency hcb unwrapF sr 12 v).length = v.length + 24
          ∧ (instantaneous_frequency hcb unwrapF sr 12 v).length ≠ v.length) := by
  constructor
  · intro hcb h v hh hv
    exact envelopeR_length hcb hh h v hv
  · intro hcb unwrapF sr v hh hu hv
    have hlen := instantaneous_frequency_length hcb unwrapF hh hu sr v hv
    exact ⟨hlen, by rw [hlen]; omega⟩

/-- Witness for C1 at a shape-preserving Hilbert callback, the identity
unwrap, the default sample rate and a trace of 25 zeros. -/
theorem claim_C1_output_shapes_witness :
    ((∀ l : List ℝ, (l.map Complex.ofReal).length = l.length)
      ∧ 12 ≤ (List.replicate 25 (0 : ℝ)).length)
    ∧ (envelopeR (fun l => l.map Complex.ofReal) 12
        (List.replicate 25 0)).length = 25
    ∧ (instantaneous_frequency (fun l => l.map Complex.ofReal) (fun l => l) 4
        12 (List.replicate 25 0)).length = 49 := by
  refine ⟨⟨fun l => by simp, by simp⟩, ?_, ?_⟩
  · have hres := claim_C1_output_shapes.1 (fun l => l.map Complex.ofReal) 12
      (List.replicate 25 0) (fun l => by simp) (by simp)
    simpa using hres
  · have hres := (claim_C1_output_shapes.2 (fun l => l.map Complex.ofReal)
      (fun l => l) 4 (List.replicate 25 0) (fun l => by simp) (fun l => rfl)
      (by simp)).1
    simpa using hres

/-- C2: for every trace, the segments induced by the cumulative sum of the
local-minima indicator partition the trace's index range: segment lengths sum
to the trace length, every index belongs to exactly one segment id present in
the trace, and each segment is contiguous (no gaps, no overlaps). -/
theorem claim_C2_segments_partition (e : List ℚ) :
    (((npUnique (troughsOf e)).map
        (fun v => (npWhere (troughsOf e) v).length)).sum = e.length)
    ∧ (∀ i, i < e.length →
        ∃! v, v ∈ npUnique (troughsOf e) ∧ i ∈ npWhere (troughsOf e) v)
    ∧ (∀ v i j k, i ∈ npWhere (troughsOf e) v → k ∈ npWhere (troughsOf e) v →
        i ≤ j → j ≤ k → j ∈ npWhere (troughsOf e) v) := by
  refine ⟨?_, ?_, ?_⟩
  · rw [npUnique_sum_counts, troughsOf_length]
  · intro i hi
    have hi2 : i < (troughsOf e).length := by rw [troughsOf_length]; exact hi
    refine ⟨(troughsOf e).getD i 0, ⟨?_, ?_⟩, ?_⟩
    · rw [mem_npUnique, List.getD_eq_getElem _ 0 hi2]
      exact List.getElem_mem hi2
    · exact mem_npWhere.mpr ⟨hi2, rfl⟩
    · rintro v ⟨hv, hiw⟩
      exact ((mem_npWhere.mp hiw).2).symm
  · intro v i j k hiw hkw hij hjk
    obtain ⟨hi, hvi⟩ := mem_npWhere.mp hiw
    obtain ⟨hk, hvk⟩ := mem_npWhere.mp hkw
    have hj : j < (troughsOf e).length := lt_of_le_of_lt hjk hk
    have hjlen : j < (localMinIndicator e).length := by
      rw [localMinIndicator_length, ← troughsOf_length]
      exact hj
    have hklen : k < (localMinIndicator e).length := by
      rw [localMinIndicator_length, ← troughsOf_length]
      exact hk
    have hm1 : (troughsOf e).getD i 0 ≤ (troughsOf e).getD j 0 :=
      cumsumFrom_mono (localMinIndicator e) 0 (localMinIndicator_nonneg e) i j
        hij hjlen
    have hm2 : (troughsOf e).getD j 0 ≤ (troughsOf e).getD k 0 :=
      cumsumFrom_mono (localMinIndicator e) 0 (localMinIndicator_nonneg e) j k
        hjk hklen
    refine mem_npWhere.mpr ⟨hj, ?_⟩
    have hle1 : v ≤ (troughsOf e).getD j 0 := by rw [← hvi]; exact hm1
    have hle2 : (troughsOf e).getD j 0 ≤ v := by rw [← hvk]; exact hm2
    exact le_antisymm hle2 hle1

/-- Witness for C2 at the spec's end-to-end scenario trace
[1,3,5,3,1,3,5,1]. -/
theorem claim_C2_segments_partition_witness :
    ((2 : ℕ) < ([1, 3, 5, 3, 1, 3, 5, 1] : List ℚ).length)
    ∧ (((npUnique (troughsOf [1, 3, 5, 3, 1, 3, 5, 1])).map
        (fun v => (npWhere (troughsOf [1, 3, 5, 3, 1, 3, 5, 1]) v).length)).sum
          = 8)
    ∧ (∃! v, v ∈ npUnique (troughsOf [1, 3, 5, 3, 1, 3, 5, 1]) ∧
        2 ∈ npWhere (troughsOf [1, 3, 5, 3, 1, 3, 5, 1]) v) :=
  ⟨by decide, (claim_C2_segments_partition [1, 3, 5, 3, 1, 3, 5, 1]).1,
    (claim_C2_segments_partition [1, 3, 5, 3, 1, 3, 5, 1]).2.1 2 (by decide)⟩

/-- C3: in take-companion mode, for every reference / companion / segment-id
trace of equal shape and every distinct segment id present, there is a peak
index — the first index achieving the maximum of the reference restricted to
the segment — such that every index of the segment receives the companion's
value at that peak, in all three of the response closures. -/
theorem claim_C3_take_companion (c1 c2 c3 : List ℚ)
    (h1 : c1.length = c3.length) (h2 : c2.length = c3.length) (v : ℚ)
    (hv : v ∈ npUnique c3) :
    ∃ p, isFirstPeak c1 (npWhere c3 v) p ∧
      (∀ k ∈ npWhere c3 v,
        (operationResponsePhase c1 c2 c3).getD k 0 = c2.getD p 0) ∧
      (∀ k ∈ npWhere c3 v,
        (operationResponseFrequency c1 c2 c3).getD k 0 = c2.getD p 0) ∧
      (∀ k ∈ npWhere c3 v,
        (operationResponseAmplitude c1 c2 c3).getD k 0 = c2.getD p 0) := by
  have hvc : v ∈ c3 := mem_npUnique.mp hv
  refine ⟨peakOf c1 c3 v, peakOf_isFirstPeak c1 c3 v hvc, ?_, ?_, ?_⟩
  all_goals
    intro k hkw
    obtain ⟨hk, hceq⟩ := mem_npWhere.mp hkw
    show (operationResponsePhase c1 c2 c3).getD k 0 = _
    rw [operationResponsePhase_getD c1 c2 c3 h1 k hk, hceq]

/-- Witness for C3 on a single-segment trace with an interior maximum. -/
theorem claim_C3_take_companion_witness :
    (([1, 3, 2] : List ℚ).length = ([0, 0, 0] : List ℚ).length
      ∧ ([10, 20, 30] : List ℚ).length = ([0, 0, 0] : List ℚ).length
      ∧ (0 : ℚ) ∈ npUnique [0, 0, 0])
    ∧ ∃ p, isFirstPeak [1, 3, 2] (npWhere [0, 0, 0] 0) p ∧
        (∀ k ∈ npWhere [0, 0, 0] 0,
          (operationResponsePhase [1, 3, 2] [10, 20, 30] [0, 0, 0]).getD k 0 =
            List.getD [10, 20, 30] p 0) ∧
        (∀ k ∈ npWhere [0, 0, 0] 0,
          (operationResponseFrequency [1, 3, 2] [10, 20, 30] [0, 0, 0]).getD k 0 =
            List.getD [10, 20, 30] p 0) ∧
        (∀ k ∈ npWhere [0, 0, 0] 0,
          (operationResponseAmplitude [1, 3, 2] [10, 20, 30] [0, 0, 0]).getD k 0 =
            List.getD [10, 20, 30] p 0) :=
  ⟨⟨rfl, rfl, by decide⟩,
    claim_C3_take_companion [1, 3, 2] [10, 20, 30] [0, 0, 0] rfl rfl 0
      (by decide)⟩

/-- C4, counterexample: the claim that every element of
`relative_amplitude_change` lies in [-1, 1] post-clip — including where the
envelope denominator is zero — is false: on an all-zero trace the envelope and
its derivative are both zero, the 0/0 division yields NaN, and clip propagates
NaN, which is not a finite value in [-1, 1]. -/
theorem claim_C4_counterexample :
    ¬ ∀ (hcb : List ℚ → List (ℚ × ℚ)) (cabs : ℚ × ℚ → ℚ) (h : ℕ)
        (v : List ℚ), ∀ x ∈ relative_amplitude_change hcb cabs h v,
          ∃ q, x = FVal.fin q ∧ -1 ≤ q ∧ q ≤ 1 := by
  intro hall
  have hmem : FVal.nan ∈ relative_amplitude_change
      (fun l => l.map (fun t => (t, 0))) (fun z => |z.1|) 12
      (List.replicate 25 0) := by with_unfolding_all decide
  obtain ⟨q, hq, -, -⟩ := hall (fun l => l.map (fun t => (t, 0)))
    (fun z => |z.1|) 12 (List.replicate 25 0) FVal.nan hmem
  exact FVal.noConfusion hq

/-- C4, amended: every element of `relative_amplitude_change` is either a
finite value in [-1, 1] (infinite quotients from x/0 with x ≠ 0 are clipped
to the bounds) or NaN, which arises from a 0/0 division and is propagated by
clip. -/
theorem claim_C4_bounded_or_nan (hcb : List ℚ → List (ℚ × ℚ))
    (cabs : ℚ × ℚ → ℚ) (h : ℕ) (v : List ℚ) :
    ∀ x ∈ relative_amplitude_change hcb cabs h v,
      (∃ q, x = FVal.fin q ∧ -1 ≤ q ∧ q ≤ 1) ∨ x = FVal.nan := by
  intro x hx
  rw [relative_amplitude_change] at hx
  obtain ⟨y, hy, hfe⟩ := List.mem_map.mp hx
  subst hfe
  cases y with
  | fin q =>
    left
    refine ⟨max (-1) (min 1 q), rfl, le_max_left _ _, ?_⟩
    exact max_le (by norm_num) (min_le_left 1 q)
  | pinf => exact Or.inl ⟨1, rfl, by norm_num, le_refl 1⟩
  | ninf => exact Or.inl ⟨-1, rfl, le_refl (-1 : ℚ), by norm_num⟩
  | nan => exact Or.inr rfl

/-- Witness for C4 (amended) on the all-zero trace, where the NaN branch is
realised. -/
theorem claim_C4_bounded_or_nan_witness :
    (FVal.nan ∈ relative_amplitude_change (fun l => l.map (fun t => (t, 0)))
      (fun z => |z.1|) 12 (List.replicate 25 0))
    ∧ ((∃ q, FVal.nan = FVal.fin q ∧ -1 ≤ q ∧ q ≤ 1) ∨ FVal.nan = FVal.nan) :=
  ⟨by with_unfolding_all decide,
    claim_C4_bounded_or_nan (fun l => l.map (fun t => (t, 0)))
      (fun z => |z.1|) 12 (List.replicate 25 0) FVal.nan
      (by with_unfolding_all decide)⟩

/-- C5, counterexample: the post-pass `result[isnan(result)] = 0` does not
remove infinities — a +inf sample survives it — so the claim that the returned
volume contains neither NaN nor infinite values is false. -/
theorem claim_C5_counterexample :
    ¬ ∀ out : List FVal, ∀ x ∈ scrubNaN out,
        isnanF x = false ∧ isinfF x = false := by
  intro hall
  exact absurd (hall [FVal.pinf] FVal.pinf (by decide)).2 (by decide)

/-- C5, amended: the terminal post-pass replaces every NaN with 0, so the
returned volume contains no NaN; infinities are not touched. -/
theorem claim_C5_nan_scrub (out : List FVal) :
    ∀ x ∈ scrubNaN out, isnanF x = false := by
  intro x hx
  rw [scrubNaN] at hx
  obtain ⟨y, hy, hfe⟩ := List.mem_map.mp hx
  by_cases hcase : isnanF y = true
  · rw [← hfe, if_pos hcase]
    rfl
  · rw [← hfe, if_neg hcase]
    simpa using hcase

/-- Witness for C5 (amended): scrubbing a NaN sample yields 0, which is not
NaN. -/
theorem claim_C5_nan_scrub_witness :
    (FVal.fin 0 ∈ scrubNaN [FVal.nan]) ∧ isnanF (FVal.fin 0) = false :=
  ⟨by decide, claim_C5_nan_scrub [FVal.nan] (FVal.fin 0) (by decide)⟩

/-- C6, counterexample: the claim that a shape mismatch between companion and
reference raises an error before the peak-pick pass is false for the
repository code: no shape check exists, and with a companion longer than the
reference the pass runs to completion and returns a result. -/
theorem claim_C6_counterexample :
    ¬ ∀ c1 c2 c3 : List ℚ, c2.length ≠ c1.length →
        operationChecked c1 c2 c3 = none := by
  intro hall
  have hres := hall [1] [5, 6] [0] (by decide)
  have hval : operationChecked [1] [5, 6] [0] = some [5] := by decide
  rw [hval] at hres
  exact Option.noConfusion hres

/-- C6, amended: the repository performs no shape validation; whenever the
reference and segment-id traces agree in shape and the companion is at least
as long, the peak-pick loop completes normally and returns a result — no
error is raised before or during the pass. -/
theorem claim_C6_no_shape_check (c1 c2 c3 : List ℚ)
    (h1 : c1.length = c3.length) (h2 : c3.length ≤ c2.length) :
    ∃ r, operationChecked c1 c2 c3 = some r := by
  obtain ⟨r, hr, -⟩ := operationChecked_foldl_some c1 c2 c3 h1 h2 (npUnique c3)
    (fun ii hii => mem_npUnique.mp hii) (List.replicate c1.length 0) (by simp)
  exact ⟨r, hr⟩

/-- Witness for C6 (amended), with a companion strictly longer than the
reference: the pass completes. -/
theorem claim_C6_no_shape_check_witness :
    (([1] : List ℚ).length = ([0] : List ℚ).length
      ∧ ([0] : List ℚ).length ≤ ([5, 6] : List ℚ).length
      ∧ ([5, 6] : List ℚ).length ≠ ([1] : List ℚ).length)
    ∧ ∃ r, operationChecked [1] [5, 6] [0] = some r :=
  ⟨⟨rfl, by decide, by decide⟩,
    claim_C6_no_shape_check [1] [5, 6] [0] rfl (by decide)⟩

/-- C7: for every reference / companion / segment-id trace of equal shape and
every distinct segment id present, `apparent_polarity`'s closure writes
`reference[peak] * sign(companion[peak])` to every index of the segment,
where the peak is the first index achieving the maximum of the reference over
the segment. -/
theorem claim_C7_signed_peak (c1 c2 c3 : List ℚ)
    (h1 : c1.length = c3.length) (h2 : c2.length = c3.length) (v : ℚ)
    (hv : v ∈ npUnique c3) :
    ∃ p, isFirstPeak c1 (npWhere c3 v) p ∧
      ∀ k ∈ npWhere c3 v,
        (operationApparentPolarity c1 c2 c3).getD k 0 =
          c1.getD p 0 * npSign (c2.getD p 0) := by
  have hvc : v ∈ c3 := mem_npUnique.mp hv
  refine ⟨peakOf c1 c3 v, peakOf_isFirstPeak c1 c3 v hvc, ?_⟩
  intro k hkw
  obtain ⟨hk, hceq⟩ := mem_npWhere.mp hkw
  rw [operationApparentPolarity_getD c1 c2 c3 h1 k hk, hceq]

/-- Witness for C7 on a single-segment trace whose companion is negative at
the peak. -/
theorem claim_C7_signed_peak_witness :
    (([2, 5, 1] : List ℚ).length = ([0, 0, 0] : List ℚ).length
      ∧ ([1, -3, 2] : List ℚ).length = ([0, 0, 0] : List ℚ).length
      ∧ (0 : ℚ) ∈ npUnique [0, 0, 0])
    ∧ ∃ p, isFirstPeak [2, 5, 1] (npWhere [0, 0, 0] 0) p ∧
        ∀ k ∈ npWhere [0, 0, 0] 0,
          (operationApparentPolarity [2, 5, 1] [1, -3, 2] [0, 0, 0]).getD k 0 =
            List.getD [2, 5, 1] p 0 * npSign (List.getD [1, -3, 2] p 0) :=
  ⟨⟨rfl, rfl, by decide⟩,
    claim_C7_signed_peak [2, 5, 1] [1, -3, 2] [0, 0, 0] rfl rfl 0 (by decide)⟩

/-- C8: `cosine_instantaneous_phase` equals the spec formula
`deg(angle(deg(angle(analytic))))` — the angle is applied a second time to the
already degrees-valued instantaneous phase — and consequently every output
sample is 0 or 180 (the angle of a real number), not a cosine value. -/
theorem claim_C8_angle_applied_twice (hcb : List ℝ → List ℂ) (h : ℕ)
    (v : List ℝ) :
    cosine_instantaneous_phase hcb h v = cosineInstPhaseSpecFormula hcb h v
    ∧ ∀ k : ℕ, (cosine_instantaneous_phase hcb h v).getD k 0 = 0 ∨
        (cosine_instantaneous_phase hcb h v).getD k 0 = 180 := by
  refine ⟨rfl, ?_⟩
  intro k
  rw [cosine_instantaneous_phase, List.getD_eq_getElem?_getD,
    List.getElem?_map]
  cases hop : (instantaneous_phase hcb h v)[k]? with
  | none => exact Or.inl rfl
  | some x => simpa using rad2deg_arg_real x

/-- C9: the spec says sweetness is the envelope divided by
max(instantaneous frequency, 5).  In the code the envelope trace has the
input's length but the clamped instantaneous-frequency trace is 24 samples
longer (the untrimmed ghost of line 318), so the elementwise division is
shape-mismatched and fails instead of producing the claimed quotient. -/
theorem claim_C9_sweetness_shape_mismatch (hcb : List ℝ → List ℂ)
    (unwrapF : List ℝ → List ℝ) (sr : ℝ) (v : List ℝ)
    (hh : ∀ l, (hcb l).length = l.length)
    (hu : ∀ l, (unwrapF l).length = l.length) (hv : 12 ≤ v.length) :
    sweetness hcb unwrapF sr 12 v = none := by
  have henv := envelopeR_length hcb hh 12 v hv
  have hif := instantaneous_frequency_length hcb unwrapF hh hu sr v hv
  rw [sweetness, zipDivSameLength,
    if_neg (by rw [henv, List.length_map, hif]; omega)]

/-- Witness for C9 at a shape-preserving Hilbert callback, identity unwrap,
default sample rate and a trace of 25 zeros. -/
theorem claim_C9_sweetness_shape_mismatch_witness :
    ((∀ l : List ℝ, (l.map Complex.ofReal).length = l.length)
      ∧ 12 ≤ (List.replicate 25 (0 : ℝ)).length)
    ∧ sweetness (fun l => l.map Complex.ofReal) (fun l => l) 4 12
        (List.replicate 25 0) = none :=
  ⟨⟨fun l => by simp, by simp⟩,
    claim_C9_sweetness_shape_mismatch (fun l => l.map Complex.ofReal)
      (fun l => l) 4 (List.replicate 25 0) (fun l => by simp) (fun l => rfl)
      (by simp)⟩

/-- C10: the per-block take-companion closures defined inside
`response_phase`, `response_frequency` and `response_amplitude` are
extensionally equal: on all chunks they return identical outputs. -/
theorem claim_C10_closures_identical (c1 c2 c3 : List ℚ) :
    operationResponseFrequency c1 c2 c3 = operationResponsePhase c1 c2 c3
    ∧ operationResponseAmplitude c1 c2 c3 = operationResponsePhase c1 c2 c3 :=
  ⟨rfl, rfl⟩

end D2Geo
